import Mathlib

/-!
Shallow embedding of the `knap` crate: the exact 0/1 knapsack solver
(`src/knapsack.rs`), the greedy value-density solver (`src/greedy.rs`),
the older greedy variant (`src/optimal.rs`), and the cursor-based
iterator contract shared by all of them.  Machine integers (`usize`)
are modelled as `Nat`; the `f64` value/weight ratios of the greedy
solvers are modelled exactly (see `Score` below).
-/

/-- An item of the knapsack problem: the `Weight`/`Value` capability
contract of `src/traits.rs` exposes two non-negative integers
(`usize` in the source, `Nat` here). -/
structure Item where
  weight : Nat
  value : Nat
deriving DecidableEq, Repr

/-- Total weight of a list of items. -/
def sumW : List Item → Nat
  | [] => 0
  | it :: rest => it.weight + sumW rest

/-- Total value of a list of items. -/
def sumV : List Item → Nat
  | [] => 0
  | it :: rest => it.value + sumV rest

theorem sumW_append (l1 l2 : List Item) : sumW (l1 ++ l2) = sumW l1 + sumW l2 := by
  induction l1 with
  | nil => simp [sumW]
  | cons it rest ih => simp [sumW, ih]; omega

theorem sumV_append (l1 l2 : List Item) : sumV (l1 ++ l2) = sumV l1 + sumV l2 := by
  induction l1 with
  | nil => simp [sumV]
  | cons it rest ih => simp [sumV, ih]; omega

theorem sumW_reverse (l : List Item) : sumW l.reverse = sumW l := by
  induction l with
  | nil => rfl
  | cons it rest ih => simp [List.reverse_cons, sumW_append, sumW, ih]; omega

theorem sumV_reverse (l : List Item) : sumV l.reverse = sumV l := by
  induction l with
  | nil => rfl
  | cons it rest ih => simp [List.reverse_cons, sumV_append, sumV, ih]; omega

/-!
### Exact solver (`src/knapsack.rs`, `compute_solution`)

The Rust code fills a table `dp[i][w]` = best value achievable with the
first `i` items under budget `w` (rows built from `dp[0][*] = 0` by the
usual 0/1 recurrence), then reconstructs the chosen set by walking `i`
from `n` down to `1`, including item `i-1` exactly when
`current_w >= weight && dp[i][current_w] != dp[i-1][current_w]`.

We embed the table functionally: `bestVal l w` is `dp[i][w]` where `l`
is the REVERSED prefix of the first `i` items (its head is item `i-1`,
the last-considered one), so the recurrence on `i` becomes structural
recursion on `l`.  `reconstructRev` walks the same reversed list, which
is exactly the source's descending loop over `i`.
-/

/-- Value of the DP table: `bestVal l w = dp[i][w]` where `l` is the
reversed length-`i` prefix of the item list.  The cons case is the
recurrence of `knapsack.rs` lines 50-58 verbatim
(`dp[i][w] = dp[i-1][w].max(dp[i-1][w-wt]+val)` when `wt <= w`). -/
def bestVal : List Item → Nat → Nat
  | [], _ => 0
  | it :: rest, w =>
    if it.weight ≤ w then
      max (bestVal rest w) (bestVal rest (w - it.weight) + it.value)
    else
      bestVal rest w

/-- The reconstruction loop of `knapsack.rs` lines 61-72: walking items
from last to first (head of the reversed list first), include the item
when it fits the remaining budget and `dp[i][w] != dp[i-1][w]`. -/
def reconstructRev : List Item → Nat → List Item
  | [], _ => []
  | it :: rest, w =>
    if it.weight ≤ w ∧ bestVal (it :: rest) w ≠ bestVal rest w then
      it :: reconstructRev rest (w - it.weight)
    else
      reconstructRev rest w

/-- The solution list computed by `KnapsackIterator::compute_solution`:
empty input or zero capacity short-circuit to the empty list
(lines 37-41), otherwise the reconstruction output is reversed
(line 74) so items appear in original input order. -/
def compute_solution (items : List Item) (capacity : Nat) : List Item :=
  if items = [] ∨ capacity = 0 then []
  else (reconstructRev items.reverse capacity).reverse

/-- The DP value is monotone in the weight budget. -/
theorem bestVal_mono (l : List Item) : ∀ w w2 : Nat, w ≤ w2 → bestVal l w ≤ bestVal l w2 := by
  induction l with
  | nil => intro w w2 _; simp [bestVal]
  | cons it rest ih =>
    intro w w2 hw
    by_cases h1 : it.weight ≤ w
    · have h2 : it.weight ≤ w2 := le_trans h1 hw
      simp only [bestVal, if_pos h1, if_pos h2]
      exact max_le_max (ih w w2 hw)
        (Nat.add_le_add_right (ih _ _ (Nat.sub_le_sub_right hw _)) _)
    · by_cases h2 : it.weight ≤ w2
      · simp only [bestVal, if_neg h1, if_pos h2]
        exact le_trans (ih w w2 hw) (le_max_left _ _)
      · simp only [bestVal, if_neg h1, if_neg h2]
        exact ih w w2 hw

/-- Adding one more considered item never decreases the DP value. -/
theorem bestVal_cons_ge (it : Item) (rest : List Item) (w : Nat) :
    bestVal rest w ≤ bestVal (it :: rest) w := by
  by_cases h : it.weight ≤ w
  · simp only [bestVal, if_pos h]; exact le_max_left _ _
  · simp only [bestVal, if_neg h]; exact le_rfl

/-- Upper-bound half of DP correctness: every feasible sub-selection of
the considered items is worth at most the DP value. -/
theorem sumV_le_bestVal : ∀ (l sel : List Item) (w : Nat),
    sel.Sublist l → sumW sel ≤ w → sumV sel ≤ bestVal l w := by
  intro l
  induction l with
  | nil =>
    intro sel w hsel _
    rw [List.sublist_nil.mp hsel]; simp [sumV, bestVal]
  | cons it rest ih =>
    intro sel w hsel hw
    cases hsel with
    | cons _ h =>
      exact le_trans (ih _ _ h hw) (bestVal_cons_ge it rest w)
    | cons₂ _ h =>
      rename_i sel2
      have hwit : it.weight ≤ w := by
        have := hw; simp [sumW] at this; omega
      have hsel2 : sumW sel2 ≤ w - it.weight := by
        have := hw; simp [sumW] at this; omega
      have hv := ih sel2 (w - it.weight) h hsel2
      simp only [bestVal, if_pos hwit, sumV]
      calc it.value + sumV sel2 ≤ it.value + bestVal rest (w - it.weight) := by omega
        _ = bestVal rest (w - it.weight) + it.value := by omega
        _ ≤ max (bestVal rest w) (bestVal rest (w - it.weight) + it.value) := le_max_right _ _

/-- Lower-bound half of DP correctness: the reconstruction loop produces
a sub-selection of the considered items, fits the budget, and achieves
exactly the DP value. -/
theorem reconstructRev_spec : ∀ (l : List Item) (w : Nat),
    (reconstructRev l w).Sublist l ∧ sumW (reconstructRev l w) ≤ w ∧
      sumV (reconstructRev l w) = bestVal l w := by
  intro l
  induction l with
  | nil => intro w; exact ⟨List.Sublist.refl _, by simp [reconstructRev, sumW], rfl⟩
  | cons it rest ih =>
    intro w
    by_cases hc : it.weight ≤ w ∧ bestVal (it :: rest) w ≠ bestVal rest w
    · obtain ⟨ihs, ihw, ihv⟩ := ih (w - it.weight)
      have hval : bestVal (it :: rest) w = bestVal rest (w - it.weight) + it.value := by
        have hdef : bestVal (it :: rest) w =
            max (bestVal rest w) (bestVal rest (w - it.weight) + it.value) := by
          simp only [bestVal, if_pos hc.1]
        rcases max_choice (bestVal rest w) (bestVal rest (w - it.weight) + it.value) with hm | hm
        · exact absurd (hdef.trans hm) hc.2
        · exact hdef.trans hm
      refine ⟨?_, ?_, ?_⟩
      · simp only [reconstructRev, if_pos hc]
        exact List.Sublist.cons₂ it ihs
      · simp only [reconstructRev, if_pos hc, sumW]
        omega
      · simp only [reconstructRev, if_pos hc, sumV]
        omega
    · obtain ⟨ihs, ihw, ihv⟩ := ih w
      have hval : bestVal (it :: rest) w = bestVal rest w := by
        by_cases hfit : it.weight ≤ w
        · by_cases hne : bestVal (it :: rest) w ≠ bestVal rest w
          · exact absurd ⟨hfit, hne⟩ hc
          · omega
        · simp only [bestVal, if_neg hfit]
      refine ⟨?_, ?_, ?_⟩
      · simp only [reconstructRev, if_neg hc]
        exact List.Sublist.cons it ihs
      · simp only [reconstructRev, if_neg hc]
        exact ihw
      · simp only [reconstructRev, if_neg hc]
        omega

/-- The reconstruction loop never includes a zero-value item: inclusion
requires `dp[i][w] != dp[i-1][w]`, which a zero-value item cannot cause. -/
theorem reconstructRev_pos_value : ∀ (l : List Item) (w : Nat) (x : Item),
    x ∈ reconstructRev l w → 0 < x.value := by
  intro l
  induction l with
  | nil => intro w x hx; simp [reconstructRev] at hx
  | cons it rest ih =>
    intro w x hx
    by_cases hc : it.weight ≤ w ∧ bestVal (it :: rest) w ≠ bestVal rest w
    · simp only [reconstructRev, if_pos hc, List.mem_cons] at hx
      rcases hx with hx | hx
      · subst hx
        by_contra hz
        have hz0 : x.value = 0 := by omega
        have : bestVal (x :: rest) w = bestVal rest w := by
          simp only [bestVal, if_pos hc.1, hz0, Nat.add_zero]
          exact max_eq_left (bestVal_mono rest _ _ (Nat.sub_le _ _))
        exact hc.2 this
      · exact ih _ x hx
    · simp only [reconstructRev, if_neg hc] at hx
      exact ih _ x hx

/-!
### Greedy solver (`src/greedy.rs`, `calculate_greedy_items`)

The source computes an `f64` ratio for every item: `value / weight`
when `weight > 0`, `f64::MAX` when `weight == 0 && value > 0`, and
`-1.0` otherwise.  We model the ratio with the three-way `Score` type
below, keeping the finite quotient `value / weight` as its exact
numerator/denominator pair and comparing by cross-multiplication.  On
the values the program can produce this agrees with `f64` comparison:
the quotients are non-negative and far below `f64::MAX`, `-1.0` is
below all of them, `f64` division is correctly rounded so equal
rationals give equal floats, and rounding is monotone so the float
order never inverts the rational order (two astronomically close but
distinct rationals may round to equal floats; no claim in scope
depends on such a pair).
-/

/-- The ratio value attached to an item by the greedy solvers:
`negOne` models the `-1.0` sentinel of `greedy.rs`, `num v w` the
finite quotient `v / w` for an item of value `v` and positive weight
`w` (`optimal.rs` uses `num 0 1`, i.e. plain `0.0`, as its sentinel),
and `top` models `f64::MAX`. -/
inductive Score where
  | negOne : Score
  | num : ℕ → ℕ+ → Score
  | top : Score
deriving DecidableEq, Repr

/-- Three-way comparison on naturals, as `usize::cmp`. -/
def cmpN (a b : Nat) : Ordering :=
  if a < b then .lt else if b < a then .gt else .eq

theorem cmpN_eq_lt {a b : Nat} : cmpN a b = .lt ↔ a < b := by
  unfold cmpN
  split_ifs with h1 h2
  · simp [h1]
  · simp [h1]
  · simp [h1]

theorem cmpN_eq_gt {a b : Nat} : cmpN a b = .gt ↔ b < a := by
  unfold cmpN
  split_ifs with h1 h2
  · exact iff_of_false (by simp) (by omega)
  · exact iff_of_true rfl h2
  · exact iff_of_false (by simp) h2

theorem cmpN_eq_eq {a b : Nat} : cmpN a b = .eq ↔ a = b := by
  unfold cmpN
  split_ifs with h1 h2
  · exact iff_of_false (by simp) (by omega)
  · exact iff_of_false (by simp) (by omega)
  · exact iff_of_true rfl (by omega)

theorem cmpN_ne_gt {a b : Nat} : cmpN a b ≠ .gt ↔ a ≤ b := by
  rw [ne_eq, cmpN_eq_gt]; omega

theorem ord_not_gt {o : Ordering} (h1 : o ≠ Ordering.eq) (h2 : o ≠ Ordering.gt) :
    o = Ordering.lt := by
  cases o <;> simp_all

/-- Comparison on `Score`, matching `f64::partial_cmp` on the modelled
values: `-1.0` below every produced finite quotient, `f64::MAX` above
every produced finite quotient, and two finite quotients compared as
exact fractions (by cross-multiplication). -/
def Score.scmp : Score → Score → Ordering
  | .negOne, .negOne => .eq
  | .negOne, .num _ _ => .lt
  | .negOne, .top => .lt
  | .num _ _, .negOne => .gt
  | .num v1 w1, .num v2 w2 => cmpN (v1 * (w2 : ℕ)) (v2 * (w1 : ℕ))
  | .num _ _, .top => .lt
  | .top, .negOne => .gt
  | .top, .num _ _ => .gt
  | .top, .top => .eq

theorem cross_lt_lt {v1 v2 v3 : ℕ} {w1 w2 w3 : ℕ} (hw1 : 0 < w1) (_hw2 : 0 < w2)
    (ha : v1 * w2 < v2 * w1) (hb : v2 * w3 < v3 * w2) : v1 * w3 < v3 * w1 := by
  have key : v1 * w3 * w2 < v3 * w1 * w2 := by
    calc v1 * w3 * w2 = v1 * w2 * w3 := by ring
      _ ≤ v2 * w1 * w3 := Nat.mul_le_mul_right _ (le_of_lt ha)
      _ = v2 * w3 * w1 := by ring
      _ < v3 * w2 * w1 := by
          exact Nat.mul_lt_mul_of_lt_of_le hb (le_refl w1) hw1
      _ = v3 * w1 * w2 := by ring
  exact Nat.lt_of_mul_lt_mul_right key

theorem cross_eq_lt {v1 v2 v3 : ℕ} {w1 w2 w3 : ℕ} (hw1 : 0 < w1) (_hw2 : 0 < w2)
    (ha : v1 * w2 = v2 * w1) (hb : v2 * w3 < v3 * w2) : v1 * w3 < v3 * w1 := by
  have key : v1 * w3 * w2 < v3 * w1 * w2 := by
    calc v1 * w3 * w2 = v1 * w2 * w3 := by ring
      _ = v2 * w1 * w3 := by rw [ha]
      _ = v2 * w3 * w1 := by ring
      _ < v3 * w2 * w1 := Nat.mul_lt_mul_of_lt_of_le hb (le_refl w1) hw1
      _ = v3 * w1 * w2 := by ring
  exact Nat.lt_of_mul_lt_mul_right key

theorem cross_lt_eq {v1 v2 v3 : ℕ} {w1 w2 w3 : ℕ} (_hw2 : 0 < w2) (hw3 : 0 < w3)
    (ha : v1 * w2 < v2 * w1) (hb : v2 * w3 = v3 * w2) : v1 * w3 < v3 * w1 := by
  have key : v1 * w3 * w2 < v3 * w1 * w2 := by
    calc v1 * w3 * w2 = v1 * w2 * w3 := by ring
      _ < v2 * w1 * w3 := Nat.mul_lt_mul_of_lt_of_le ha (le_refl w3) hw3
      _ = v2 * w3 * w1 := by ring
      _ = v3 * w2 * w1 := by rw [hb]
      _ = v3 * w1 * w2 := by ring
  exact Nat.lt_of_mul_lt_mul_right key

theorem cross_eq_eq {v1 v2 v3 : ℕ} {w1 w2 w3 : ℕ} (hw2 : 0 < w2)
    (ha : v1 * w2 = v2 * w1) (hb : v2 * w3 = v3 * w2) : v1 * w3 = v3 * w1 := by
  have key : v1 * w3 * w2 = v3 * w1 * w2 := by
    calc v1 * w3 * w2 = v1 * w2 * w3 := by ring
      _ = v2 * w1 * w3 := by rw [ha]
      _ = v2 * w3 * w1 := by ring
      _ = v3 * w2 * w1 := by rw [hb]
      _ = v3 * w1 * w2 := by ring
  exact Nat.eq_of_mul_eq_mul_right hw2 key

theorem scmp_eq_symm {s t : Score} (h : Score.scmp s t = .eq) : Score.scmp t s = .eq := by
  cases s <;> cases t <;> simp_all [Score.scmp, cmpN_eq_eq]

theorem scmp_eq_top {s t : Score} (h : Score.scmp s t = .eq) (hs : s = Score.top) :
    t = Score.top := by
  subst hs; cases t <;> simp_all [Score.scmp]

theorem scmp_eq_trans {s t u : Score} (h1 : Score.scmp s t = .eq)
    (h2 : Score.scmp t u = .eq) : Score.scmp s u = .eq := by
  cases s <;> cases t <;> cases u <;> simp_all [Score.scmp, cmpN_eq_eq]
  case num.num.num v1 w1 v2 w2 v3 w3 =>
    exact cross_eq_eq w2.pos h1 h2

theorem scmp_lt_trans {s t u : Score} (h1 : Score.scmp s t = .lt)
    (h2 : Score.scmp t u = .lt) : Score.scmp s u = .lt := by
  cases s <;> cases t <;> cases u <;> simp_all [Score.scmp, cmpN_eq_lt]
  case num.num.num v1 w1 v2 w2 v3 w3 =>
    exact cross_lt_lt w1.pos w2.pos h1 h2

theorem scmp_eq_lt_trans {s t u : Score} (h1 : Score.scmp s t = .eq)
    (h2 : Score.scmp t u = .lt) : Score.scmp s u = .lt := by
  cases s <;> cases t <;> cases u <;>
    simp_all [Score.scmp, cmpN_eq_lt, cmpN_eq_eq]
  case num.num.num v1 w1 v2 w2 v3 w3 =>
    exact cross_eq_lt w1.pos w2.pos h1 h2

theorem scmp_lt_eq_trans {s t u : Score} (h1 : Score.scmp s t = .lt)
    (h2 : Score.scmp t u = .eq) : Score.scmp s u = .lt := by
  cases s <;> cases t <;> cases u <;>
    simp_all [Score.scmp, cmpN_eq_lt, cmpN_eq_eq]
  case num.num.num v1 w1 v2 w2 v3 w3 =>
    exact cross_lt_eq w2.pos w3.pos h1 h2

theorem scmp_gt_iff {s t : Score} : Score.scmp s t = .gt ↔ Score.scmp t s = .lt := by
  cases s <;> cases t <;> simp [Score.scmp, cmpN_eq_lt, cmpN_eq_gt]

/-- One entry of the `items_with_meta` vector of the greedy solvers.
The source stores the tuple `(original_index, ratio, value)` and later
fetches `items_list[original_index]`; since the index is paired with
that very item by `enumerate()`, we carry the item itself, and the
stored value component is `item.value`. -/
structure Meta where
  idx : Nat
  item : Item
  sc : Score
deriving DecidableEq, Repr

/-- Ratio computation of `greedy.rs` lines 83-89. -/
def greedyScore (it : Item) : Score :=
  if h : 0 < it.weight then .num it.value ⟨it.weight, h⟩
  else if 0 < it.value then .top
  else .negOne

/-- Ratio computation of `optimal.rs` lines 109-117: the zero-weight
zero-value sentinel is `0.0`, i.e. the same value as a genuine zero
ratio. -/
def optScore (it : Item) : Score :=
  if h : 0 < it.weight then .num it.value ⟨it.weight, h⟩
  else if 0 < it.value then .top
  else .num 0 1

/-- The `enumerate().map(...)` phase: items paired with their original
index (starting at `n`) and their score. -/
def metasFrom (sc : Item → Score) : Nat → List Item → List Meta
  | _, [] => []
  | n, it :: rest => ⟨n, it, sc it⟩ :: metasFrom sc (n + 1) rest

/-- The sort comparator of `greedy.rs` lines 94-107: descending by
ratio (`b.partial_cmp(a)`); on ties, descending by value when both
ratios are `f64::MAX`, otherwise ascending by original index. -/
def greedyCmp (a b : Meta) : Ordering :=
  if Score.scmp b.sc a.sc = .eq then
    if a.sc = .top ∧ b.sc = .top then cmpN b.item.value a.item.value
    else cmpN a.idx b.idx
  else Score.scmp b.sc a.sc

/-- `a` may be placed before `b` by the sort of `greedy.rs`. -/
def greedyLe (a b : Meta) : Prop := greedyCmp a b ≠ Ordering.gt

instance : DecidableRel greedyLe :=
  fun a b => inferInstanceAs (Decidable (greedyCmp a b ≠ Ordering.gt))

/-- The sort comparator of `optimal.rs` line 122: descending by ratio
only, ties left to the stable sort. -/
def optCmp (a b : Meta) : Ordering := Score.scmp b.sc a.sc

/-- `a` may be placed before `b` by the sort of `optimal.rs`. -/
def optLe (a b : Meta) : Prop := optCmp a b ≠ Ordering.gt

instance : DecidableRel optLe :=
  fun a b => inferInstanceAs (Decidable (optCmp a b ≠ Ordering.gt))

instance : IsTotal Meta greedyLe where
  total a b := by
    unfold greedyLe greedyCmp
    by_cases heq : Score.scmp b.sc a.sc = Ordering.eq
    · have hba : Score.scmp a.sc b.sc = Ordering.eq := scmp_eq_symm heq
      rw [if_pos heq, if_pos hba]
      by_cases htop : a.sc = Score.top ∧ b.sc = Score.top
      · have htop2 : b.sc = Score.top ∧ a.sc = Score.top := ⟨htop.2, htop.1⟩
        rw [if_pos htop, if_pos htop2]
        rcases Nat.le_total b.item.value a.item.value with h | h
        · exact Or.inl (cmpN_ne_gt.mpr h)
        · exact Or.inr (cmpN_ne_gt.mpr h)
      · have htop2 : ¬(b.sc = Score.top ∧ a.sc = Score.top) :=
          fun h2 => htop ⟨h2.2, h2.1⟩
        rw [if_neg htop, if_neg htop2]
        rcases Nat.le_total a.idx b.idx with h | h
        · exact Or.inl (cmpN_ne_gt.mpr h)
        · exact Or.inr (cmpN_ne_gt.mpr h)
    · rcases hsc : Score.scmp b.sc a.sc with _ | _ | _
      · left; simp
      · exact absurd hsc heq
      · have hab : Score.scmp a.sc b.sc = Ordering.lt := scmp_gt_iff.mp hsc
        have hne : Score.scmp a.sc b.sc ≠ Ordering.eq := by rw [hab]; simp
        right; rw [if_neg hne, hab]; simp

instance : IsTrans Meta greedyLe where
  trans a b c hab hbc := by
    unfold greedyLe greedyCmp at hab hbc ⊢
    by_cases hba : Score.scmp b.sc a.sc = Ordering.eq
    · rw [if_pos hba] at hab
      by_cases hcb : Score.scmp c.sc b.sc = Ordering.eq
      · have hca : Score.scmp c.sc a.sc = Ordering.eq := scmp_eq_trans hcb hba
        rw [if_pos hcb] at hbc
        rw [if_pos hca]
        by_cases htop : a.sc = Score.top
        · have hbtop : b.sc = Score.top := scmp_eq_top (scmp_eq_symm hba) htop
          have hctop : c.sc = Score.top := scmp_eq_top (scmp_eq_symm hcb) hbtop
          rw [if_pos ⟨htop, hbtop⟩] at hab
          rw [if_pos ⟨hbtop, hctop⟩] at hbc
          rw [if_pos ⟨htop, hctop⟩]
          exact cmpN_ne_gt.mpr (le_trans (cmpN_ne_gt.mp hbc) (cmpN_ne_gt.mp hab))
        · have hbtop : b.sc ≠ Score.top := fun h => htop (scmp_eq_top hba h)
          have h1 : ¬(a.sc = Score.top ∧ b.sc = Score.top) := fun h => htop h.1
          have h2 : ¬(b.sc = Score.top ∧ c.sc = Score.top) := fun h => hbtop h.1
          have h3 : ¬(a.sc = Score.top ∧ c.sc = Score.top) := fun h => htop h.1
          rw [if_neg h1] at hab
          rw [if_neg h2] at hbc
          rw [if_neg h3]
          exact cmpN_ne_gt.mpr (le_trans (cmpN_ne_gt.mp hab) (cmpN_ne_gt.mp hbc))
      · rw [if_neg hcb] at hbc
        have hlt : Score.scmp c.sc b.sc = Ordering.lt := ord_not_gt hcb hbc
        have hca : Score.scmp c.sc a.sc = Ordering.lt := scmp_lt_eq_trans hlt hba
        have hcane : Score.scmp c.sc a.sc ≠ Ordering.eq := by rw [hca]; simp
        rw [if_neg hcane, hca]; simp
    · rw [if_neg hba] at hab
      have hlt : Score.scmp b.sc a.sc = Ordering.lt := ord_not_gt hba hab
      by_cases hcb : Score.scmp c.sc b.sc = Ordering.eq
      · have hca : Score.scmp c.sc a.sc = Ordering.lt := scmp_eq_lt_trans hcb hlt
        have hcane : Score.scmp c.sc a.sc ≠ Ordering.eq := by rw [hca]; simp
        rw [if_neg hcane, hca]; simp
      · rw [if_neg hcb] at hbc
        have hlt2 : Score.scmp c.sc b.sc = Ordering.lt := ord_not_gt hcb hbc
        have hca : Score.scmp c.sc a.sc = Ordering.lt := scmp_lt_trans hlt2 hlt
        have hcane : Score.scmp c.sc a.sc ≠ Ordering.eq := by rw [hca]; simp
        rw [if_neg hcane, hca]; simp

/-- The admission loop of `greedy.rs` lines 109-121 (identical in
`optimal.rs` lines 124-136): walk the sorted metas, keeping a running
remaining capacity, and take every item that still fits. -/
def admitAll : List Meta → Nat → List Item
  | [], _ => []
  | m :: rest, cap =>
    if m.item.weight ≤ cap then m.item :: admitAll rest (cap - m.item.weight)
    else admitAll rest cap

/-- The sorted meta list of `greedy.rs` (`items_with_meta` after
`sort_by`).  Rust's `sort_by` is a stable sort ordered by the
comparator; `List.insertionSort` is the canonical stable sort for the
same (total, transitive) relation, hence produces the same list. -/
def greedySorted (items : List Item) : List Meta :=
  List.insertionSort greedyLe (metasFrom greedyScore 0 items)

/-- `GreedyKnapsackIterator::calculate_greedy_items` of `greedy.rs`:
short-circuit on empty input or zero capacity, otherwise sort by the
comparator and admit greedily. -/
def Greedy.calculate_greedy_items (items : List Item) (capacity : Nat) : List Item :=
  if items = [] ∨ capacity = 0 then []
  else admitAll (greedySorted items) capacity

/-- The sorted meta list of `optimal.rs` (ratio-only comparator,
stable sort). -/
def optSorted (items : List Item) : List Meta :=
  List.insertionSort optLe (metasFrom optScore 0 items)

/-- `GreedyKnapsackIterator::calculate_greedy_items` of `optimal.rs`. -/
def Optimal.calculate_greedy_items (items : List Item) (capacity : Nat) : List Item :=
  if items = [] ∨ capacity = 0 then []
  else admitAll (optSorted items) capacity

/-- The admitted items always fit the capacity they were admitted
against. -/
theorem sumW_admitAll : ∀ (ms : List Meta) (cap : Nat), sumW (admitAll ms cap) ≤ cap := by
  intro ms
  induction ms with
  | nil => intro cap; simp [admitAll, sumW]
  | cons m rest ih =>
    intro cap
    by_cases h : m.item.weight ≤ cap
    · simp only [admitAll, if_pos h, sumW]
      have := ih (cap - m.item.weight)
      omega
    · simp only [admitAll, if_neg h]
      exact ih cap

/-!
### Iterator contract (`next` in `knapsack.rs`, `greedy.rs`,
`optimal.rs`)

All three iterators share the same draining loop: a solution list and
a cursor; `next` returns the element under the cursor and advances it,
or `None` when the cursor has reached the end (the exact solver first
runs its memoized `compute_solution`, which in this embedding is the
pure function already applied to build `solution`).
-/

/-- Cursor state of a solver iterator. -/
structure IterState (α : Type) where
  solution : List α
  currentIndex : Nat

/-- One pull on the iterator: `next` of `knapsack.rs` lines 91-97 /
`greedy.rs` lines 191-199, returning the yielded element (if any) and
the successor state. -/
def iterNext {α : Type} (s : IterState α) : Option α × IterState α :=
  if h : s.currentIndex < s.solution.length then
    (some (s.solution.get ⟨s.currentIndex, h⟩),
      ⟨s.solution, s.currentIndex + 1⟩)
  else
    (none, s)

/-- The indices stored by the enumeration phase are consecutive. -/
theorem metasFrom_map_idx (sc : Item → Score) : ∀ (n : ℕ) (l : List Item),
    (metasFrom sc n l).map Meta.idx = List.range' n l.length := by
  intro n l
  induction l generalizing n with
  | nil => rfl
  | cons it rest ih => simp [metasFrom, List.range', ih]

/-- Every meta entry carries the score of its own item. -/
theorem metasFrom_mem_sc (sc : Item → Score) : ∀ (n : ℕ) (l : List Item) (m : Meta),
    m ∈ metasFrom sc n l → m.sc = sc m.item := by
  intro n l
  induction l generalizing n with
  | nil => intro m hm; simp [metasFrom] at hm
  | cons it rest ih =>
    intro m hm
    simp only [metasFrom, List.mem_cons] at hm
    rcases hm with hm | hm
    · subst hm; rfl
    · exact ih _ m hm

/-- The sorted meta list of `greedy.rs` is sorted for its comparator. -/
theorem greedySorted_pairwise (items : List Item) :
    List.Pairwise greedyLe (greedySorted items) :=
  List.sorted_insertionSort greedyLe (metasFrom greedyScore 0 items)

/-- Sorting permutes the enumeration. -/
theorem greedySorted_perm (items : List Item) :
    (greedySorted items).Perm (metasFrom greedyScore 0 items) :=
  List.perm_insertionSort greedyLe (metasFrom greedyScore 0 items)

/-- The original indices in the sorted meta list are pairwise distinct. -/
theorem greedySorted_idx_nodup (items : List Item) :
    ((greedySorted items).map Meta.idx).Nodup := by
  have h2 := (greedySorted_perm items).map Meta.idx
  have h3 : ((metasFrom greedyScore 0 items).map Meta.idx).Nodup := by
    rw [metasFrom_map_idx]
    exact List.nodup_range' 0 items.length
  exact h2.symm.nodup h3

/-- Every entry of the sorted meta list scores its own item. -/
theorem greedySorted_mem_sc (items : List Item) (m : Meta)
    (hm : m ∈ greedySorted items) : m.sc = greedyScore m.item :=
  metasFrom_mem_sc greedyScore 0 items m ((greedySorted_perm items).mem_iff.mp hm)

/-- Applying an injective-on-this-list map to entries at distinct
positions gives distinct results. -/
theorem nodup_map_get_ne {α β : Type} (f : α → β) (l : List α)
    (hnd : (l.map f).Nodup) (i j : Fin l.length) (hij : i ≠ j) :
    f (l.get i) ≠ f (l.get j) := by
  intro hEq
  apply hij
  have hi2 : (i : ℕ) < (l.map f).length := by rw [List.length_map]; exact i.isLt
  have hj2 : (j : ℕ) < (l.map f).length := by rw [List.length_map]; exact j.isLt
  have e1 : (l.map f).get ⟨i, hi2⟩ = f (l.get i) := by
    rw [List.get_eq_getElem, List.getElem_map, List.get_eq_getElem]
  have e2 : (l.map f).get ⟨j, hj2⟩ = f (l.get j) := by
    rw [List.get_eq_getElem, List.getElem_map, List.get_eq_getElem]
  have h4 : (⟨(i : ℕ), hi2⟩ : Fin (l.map f).length) = ⟨(j : ℕ), hj2⟩ :=
    hnd.get_inj_iff.mp (by rw [e1, e2]; exact hEq)
  have h5 : (i : ℕ) = (j : ℕ) := by
    have h6 := congrArg Fin.val h4
    simpa using h6
  exact Fin.ext h5

/-!
### Claim theorems
-/

/-- C1 (amended): for every positive capacity, the total value of the
selection produced by the exact solver is at least the total value of
every sub-selection of the input whose total weight fits the capacity.
(At capacity 0 the solver short-circuits to the empty selection, which
can miss zero-weight positive-value items; see the counterexample.) -/
theorem exact_solver_optimal (items sel : List Item) (capacity : ℕ)
    (hcap : 0 < capacity) (hsub : sel.Sublist items) (hw : sumW sel ≤ capacity) :
    sumV sel ≤ sumV (compute_solution items capacity) := by
  unfold compute_solution
  by_cases hnil : items = []
  · subst hnil
    rw [List.sublist_nil.mp hsub]
    simp [sumV]
  · rw [if_neg (by push_neg; exact ⟨hnil, by omega⟩)]
    rw [sumV_reverse]
    obtain ⟨_, _, hv⟩ := reconstructRev_spec items.reverse capacity
    rw [hv]
    have hsub2 : sel.reverse.Sublist items.reverse := hsub.reverse
    have hw2 : sumW sel.reverse ≤ capacity := by rw [sumW_reverse]; exact hw
    have h3 := sumV_le_bestVal items.reverse sel.reverse capacity hsub2 hw2
    rw [sumV_reverse] at h3
    exact h3

/-- Witness for C1's amended theorem at a concrete instance. -/
theorem exact_solver_optimal_witness :
    0 < 1 ∧ sumW [Item.mk 1 1] ≤ 1 ∧
      sumV [Item.mk 1 1] ≤ sumV (compute_solution [Item.mk 1 1] 1) :=
  ⟨by decide, by decide,
    exact_solver_optimal [Item.mk 1 1] [Item.mk 1 1] 1 (by decide)
      (List.Sublist.refl _) (by decide)⟩

/-- Counterexample to C1 as stated: at capacity 0 the zero-weight
item of value 1 is a feasible sub-selection (total weight 0 ≤ 0) worth
strictly more than the solver's empty output. -/
theorem exact_solver_optimal_cap0_cex :
    List.Sublist [Item.mk 0 1] [Item.mk 0 1] ∧ sumW [Item.mk 0 1] ≤ 0 ∧
      ¬ sumV [Item.mk 0 1] ≤ sumV (compute_solution [Item.mk 0 1] 0) :=
  ⟨List.Sublist.refl _, by decide, by decide⟩

/-- C2: for every input and capacity, both the exact solver's and the
greedy solver's selections have total weight at most the capacity. -/
theorem solvers_feasible (items : List Item) (capacity : ℕ) :
    sumW (compute_solution items capacity) ≤ capacity ∧
      sumW (Greedy.calculate_greedy_items items capacity) ≤ capacity := by
  constructor
  · unfold compute_solution
    split_ifs with h
    · simp [sumW]
    · rw [sumW_reverse]
      exact (reconstructRev_spec items.reverse capacity).2.1
  · unfold Greedy.calculate_greedy_items
    split_ifs with h
    · simp [sumW]
    · exact sumW_admitAll _ _

/-- C3: on items (2,3),(3,4),(4,5),(5,6) with capacity 7 the exact
solver returns exactly the second and third items, total weight 7 and
total value 9 (the tie against the first-plus-fourth pair is broken by
excluding later-considered items when `dp[i][w] = dp[i-1][w]`). -/
theorem exact_tiebreak_vector :
    compute_solution [Item.mk 2 3, Item.mk 3 4, Item.mk 4 5, Item.mk 5 6] 7 =
        [Item.mk 3 4, Item.mk 4 5] ∧
      sumW (compute_solution [Item.mk 2 3, Item.mk 3 4, Item.mk 4 5, Item.mk 5 6] 7) = 7 ∧
      sumV (compute_solution [Item.mk 2 3, Item.mk 3 4, Item.mk 4 5, Item.mk 5 6] 7) = 9 := by
  refine ⟨by decide, by decide, by decide⟩

/-- C4: in the greedy solver's sorted order, whenever two entries have
equal ratio, if the ratio is the positive-infinity one the later entry
has value at most the earlier entry's value (descending value), and
otherwise the earlier entry has the smaller original input index
(stable-sort order). -/
theorem greedy_sort_tiebreak (items : List Item) (i j : ℕ)
    (hi : i < (greedySorted items).length) (hj : j < (greedySorted items).length)
    (hij : i < j)
    (heq : Score.scmp ((greedySorted items).get ⟨i, hi⟩).sc
        ((greedySorted items).get ⟨j, hj⟩).sc = Ordering.eq) :
    (((greedySorted items).get ⟨i, hi⟩).sc = Score.top →
        ((greedySorted items).get ⟨j, hj⟩).item.value ≤
          ((greedySorted items).get ⟨i, hi⟩).item.value) ∧
      (((greedySorted items).get ⟨i, hi⟩).sc ≠ Score.top →
        ((greedySorted items).get ⟨i, hi⟩).idx <
          ((greedySorted items).get ⟨j, hj⟩).idx) := by
  have hle : greedyLe ((greedySorted items).get ⟨i, hi⟩)
      ((greedySorted items).get ⟨j, hj⟩) :=
    List.pairwise_iff_get.mp (greedySorted_pairwise items) ⟨i, hi⟩ ⟨j, hj⟩
      (Fin.mk_lt_mk.mpr hij)
  have hcond : Score.scmp ((greedySorted items).get ⟨j, hj⟩).sc
      ((greedySorted items).get ⟨i, hi⟩).sc = Ordering.eq := scmp_eq_symm heq
  unfold greedyLe greedyCmp at hle
  rw [if_pos hcond] at hle
  constructor
  · intro htop
    have hbtop : ((greedySorted items).get ⟨j, hj⟩).sc = Score.top :=
      scmp_eq_top heq htop
    rw [if_pos ⟨htop, hbtop⟩] at hle
    exact cmpN_ne_gt.mp hle
  · intro hntop
    have hcondtop : ¬(((greedySorted items).get ⟨i, hi⟩).sc = Score.top ∧
        ((greedySorted items).get ⟨j, hj⟩).sc = Score.top) := fun h => hntop h.1
    rw [if_neg hcondtop] at hle
    have hle2 := cmpN_ne_gt.mp hle
    have hne : ((greedySorted items).get ⟨i, hi⟩).idx ≠
        ((greedySorted items).get ⟨j, hj⟩).idx :=
      nodup_map_get_ne Meta.idx (greedySorted items) (greedySorted_idx_nodup items)
        ⟨i, hi⟩ ⟨j, hj⟩ (by intro h; exact absurd (congrArg Fin.val h) (by simp; omega))
    omega

/-- Witness for C4 at two zero-weight items of values 5 and 7: both
score `top`, and the sorted order puts the value-7 item first. -/
theorem greedy_sort_tiebreak_witness :
    0 < (greedySorted [Item.mk 0 5, Item.mk 0 7]).length ∧
      1 < (greedySorted [Item.mk 0 5, Item.mk 0 7]).length ∧
      Score.scmp ((greedySorted [Item.mk 0 5, Item.mk 0 7]).get ⟨0, by decide⟩).sc
        ((greedySorted [Item.mk 0 5, Item.mk 0 7]).get ⟨1, by decide⟩).sc = Ordering.eq ∧
      ((((greedySorted [Item.mk 0 5, Item.mk 0 7]).get ⟨0, by decide⟩).sc = Score.top →
        ((greedySorted [Item.mk 0 5, Item.mk 0 7]).get ⟨1, by decide⟩).item.value ≤
          ((greedySorted [Item.mk 0 5, Item.mk 0 7]).get ⟨0, by decide⟩).item.value) ∧
      (((greedySorted [Item.mk 0 5, Item.mk 0 7]).get ⟨0, by decide⟩).sc ≠ Score.top →
        ((greedySorted [Item.mk 0 5, Item.mk 0 7]).get ⟨0, by decide⟩).idx <
          ((greedySorted [Item.mk 0 5, Item.mk 0 7]).get ⟨1, by decide⟩).idx)) :=
  ⟨by decide, by decide, by decide,
    greedy_sort_tiebreak [Item.mk 0 5, Item.mk 0 7] 0 1 (by decide) (by decide)
      (by decide) (by decide)⟩

/-- C5: in the greedy solver's sorted order, no positive-weight entry
precedes a zero-weight positive-value entry, no zero-weight zero-value
entry precedes a positive-weight (finite-ratio) entry, and on the
concrete FreeGood example the greedy solver yields FreeGood then A. -/
theorem greedy_zero_weight_priority (items : List Item) (i j : ℕ)
    (hi : i < (greedySorted items).length) (hj : j < (greedySorted items).length)
    (hij : i < j) :
    ¬(0 < ((greedySorted items).get ⟨i, hi⟩).item.weight ∧
        ((greedySorted items).get ⟨j, hj⟩).item.weight = 0 ∧
        0 < ((greedySorted items).get ⟨j, hj⟩).item.value) ∧
      ¬(((greedySorted items).get ⟨i, hi⟩).item.weight = 0 ∧
        ((greedySorted items).get ⟨i, hi⟩).item.value = 0 ∧
        0 < ((greedySorted items).get ⟨j, hj⟩).item.weight) ∧
      Greedy.calculate_greedy_items [Item.mk 0 1000, Item.mk 10 60] 10 =
        [Item.mk 0 1000, Item.mk 10 60] := by
  have hle : greedyLe ((greedySorted items).get ⟨i, hi⟩)
      ((greedySorted items).get ⟨j, hj⟩) :=
    List.pairwise_iff_get.mp (greedySorted_pairwise items) ⟨i, hi⟩ ⟨j, hj⟩
      (Fin.mk_lt_mk.mpr hij)
  have hsca : ((greedySorted items).get ⟨i, hi⟩).sc =
      greedyScore ((greedySorted items).get ⟨i, hi⟩).item :=
    greedySorted_mem_sc items _ (List.get_mem _ _ _)
  have hscb : ((greedySorted items).get ⟨j, hj⟩).sc =
      greedyScore ((greedySorted items).get ⟨j, hj⟩).item :=
    greedySorted_mem_sc items _ (List.get_mem _ _ _)
  unfold greedyLe greedyCmp at hle
  refine ⟨?_, ?_, by decide⟩
  · rintro ⟨hwi, hwj, hvj⟩
    have ha : ((greedySorted items).get ⟨i, hi⟩).sc =
        Score.num ((greedySorted items).get ⟨i, hi⟩).item.value
          ⟨((greedySorted items).get ⟨i, hi⟩).item.weight, hwi⟩ := by
      rw [hsca]; unfold greedyScore; rw [dif_pos hwi]
    have hb : ((greedySorted items).get ⟨j, hj⟩).sc = Score.top := by
      rw [hscb]; unfold greedyScore
      rw [dif_neg (by omega), if_pos hvj]
    rw [ha, hb] at hle
    simp [Score.scmp] at hle
  · rintro ⟨hwi, hvi, hwj⟩
    have ha : ((greedySorted items).get ⟨i, hi⟩).sc = Score.negOne := by
      rw [hsca]; unfold greedyScore
      rw [dif_neg (by omega), if_neg (by omega)]
    have hb : ((greedySorted items).get ⟨j, hj⟩).sc =
        Score.num ((greedySorted items).get ⟨j, hj⟩).item.value
          ⟨((greedySorted items).get ⟨j, hj⟩).item.weight, hwj⟩ := by
      rw [hscb]; unfold greedyScore; rw [dif_pos hwj]
    rw [ha, hb] at hle
    simp [Score.scmp] at hle

/-- Witness for C5 on the FreeGood example itself. -/
theorem greedy_zero_weight_priority_witness :
    0 < (greedySorted [Item.mk 0 1000, Item.mk 10 60]).length ∧
      1 < (greedySorted [Item.mk 0 1000, Item.mk 10 60]).length ∧
      (¬(0 < ((greedySorted [Item.mk 0 1000, Item.mk 10 60]).get ⟨0, by decide⟩).item.weight ∧
          ((greedySorted [Item.mk 0 1000, Item.mk 10 60]).get ⟨1, by decide⟩).item.weight = 0 ∧
          0 < ((greedySorted [Item.mk 0 1000, Item.mk 10 60]).get ⟨1, by decide⟩).item.value) ∧
        ¬(((greedySorted [Item.mk 0 1000, Item.mk 10 60]).get ⟨0, by decide⟩).item.weight = 0 ∧
          ((greedySorted [Item.mk 0 1000, Item.mk 10 60]).get ⟨0, by decide⟩).item.value = 0 ∧
          0 < ((greedySorted [Item.mk 0 1000, Item.mk 10 60]).get ⟨1, by decide⟩).item.weight) ∧
        Greedy.calculate_greedy_items [Item.mk 0 1000, Item.mk 10 60] 10 =
          [Item.mk 0 1000, Item.mk 10 60]) :=
  ⟨by decide, by decide,
    greedy_zero_weight_priority [Item.mk 0 1000, Item.mk 10 60] 0 1
      (by decide) (by decide) (by decide)⟩

/-- C6: empty input or zero capacity yields the empty selection from
both the exact and the greedy solver. -/
theorem degenerate_inputs_empty (items : List Item) (capacity : ℕ)
    (h : items = [] ∨ capacity = 0) :
    compute_solution items capacity = [] ∧
      Greedy.calculate_greedy_items items capacity = [] := by
  constructor
  · unfold compute_solution; rw [if_pos h]
  · unfold Greedy.calculate_greedy_items; rw [if_pos h]

/-- Witness for C6 at a nonempty input with zero capacity. -/
theorem degenerate_inputs_empty_witness :
    ([Item.mk 3 7] = ([] : List Item) ∨ (0 : ℕ) = 0) ∧
      compute_solution [Item.mk 3 7] 0 = [] ∧
      Greedy.calculate_greedy_items [Item.mk 3 7] 0 = [] :=
  ⟨Or.inr rfl, degenerate_inputs_empty [Item.mk 3 7] 0 (Or.inr rfl)⟩

/-- C7: once the cursor has reached the end of the solution list, a
pull returns the end-of-sequence marker and leaves the state (hence
every future pull) unchanged. -/
theorem drained_iterNext_none (s : IterState Item)
    (h : s.solution.length ≤ s.currentIndex) : iterNext s = (none, s) := by
  unfold iterNext
  rw [dif_neg (by omega)]

/-- Witness for C7 at the freshly drained empty-solution state. -/
theorem drained_iterNext_none_witness :
    (IterState.mk ([] : List Item) 0).solution.length ≤
        (IterState.mk ([] : List Item) 0).currentIndex ∧
      iterNext (IterState.mk ([] : List Item) 0) =
        (none, IterState.mk ([] : List Item) 0) :=
  ⟨by decide, drained_iterNext_none (IterState.mk [] 0) (by decide)⟩

/-- C8: the exact solver's output is a sublist of its input, i.e. the
selected items appear in ascending original-input-index order (and
each input occurrence is used at most once). -/
theorem exact_solution_sublist (items : List Item) (capacity : ℕ) :
    (compute_solution items capacity).Sublist items := by
  unfold compute_solution
  split_ifs with h
  · exact List.nil_sublist items
  · have h1 := (reconstructRev_spec items.reverse capacity).1
    have h2 := h1.reverse
    rwa [List.reverse_reverse] at h2

/-- C9: the greedy variant of `greedy.rs` and the greedy variant of
`optimal.rs` disagree on the input [(weight 0, value 0), (weight 1,
value 0)] with capacity 1: the `-1.0` sentinel sorts the worthless
zero-weight item last, the `0.0` sentinel ties it with the zero-ratio
item and stable sorting keeps it first. -/
theorem greedy_variants_diverge :
    Greedy.calculate_greedy_items [Item.mk 0 0, Item.mk 1 0] 1 ≠
      Optimal.calculate_greedy_items [Item.mk 0 0, Item.mk 1 0] 1 := by
  decide

/-- C10: the exact solver never selects a zero-value item, because the
reconstruction test `dp[i][w] != dp[i-1][w]` cannot hold for one. -/
theorem exact_no_zero_value (items : List Item) (capacity : ℕ) (x : Item)
    (hx : x ∈ compute_solution items capacity) : 0 < x.value := by
  unfold compute_solution at hx
  split_ifs at hx with h
  · simp at hx
  · rw [List.mem_reverse] at hx
    exact reconstructRev_pos_value items.reverse capacity x hx

/-- Witness for C10 at a singleton instance actually selected. -/
theorem exact_no_zero_value_witness :
    Item.mk 1 2 ∈ compute_solution [Item.mk 1 2] 1 ∧ 0 < (Item.mk 1 2).value :=
  ⟨by decide, exact_no_zero_value [Item.mk 1 2] 1 (Item.mk 1 2) (by decide)⟩
